import Mathlib

/-!
# FINLAB `xll_template.cpp`: the normal CDF and the Black-Scholes-Merton put

The two numerical functions of `xll_template.cpp`, `norm_cdf` and `bsm_put`, embedded over
exact real arithmetic.

A `double` that holds a finite value is modelled by the real number it denotes, and
`Option ℝ` is the type of a computed `double`: `some x` is the finite value `x`, `none` is
a result that is not a finite real number (IEEE-754 not-a-number, or an infinity).
Rounding and overflow are not modelled.  The operations of the C++ library that have no
finite real result on part of their domain (`/` on a zero divisor, `std::log` on a
non-positive argument, `std::sqrt` on a negative argument) are partial: they return `none`
there.
-/

namespace Finlab

/-! ## The C++ operations used by the source -/

namespace std

/-- The Gauss error function `std::erf`: `erf x = 2/√π · ∫₀ˣ exp (-s²) ds`. -/
noncomputable def erf (x : ℝ) : ℝ :=
  2 / Real.sqrt Real.pi * ∫ s in (0 : ℝ)..x, Real.exp (-s ^ 2)

/-- The exponential `std::exp`. -/
noncomputable def exp (x : ℝ) : ℝ := Real.exp x

/-- The square root `std::sqrt`: not-a-number on a negative argument. -/
noncomputable def sqrt (x : ℝ) : Option ℝ :=
  if x < 0 then none else some (Real.sqrt x)

/-- The natural logarithm `std::log`: not-a-number on a negative argument, and no finite
value (a pole) at zero. -/
noncomputable def log (x : ℝ) : Option ℝ :=
  if x ≤ 0 then none else some (Real.log x)

end std

/-- The division `x / y` of two `double`s: no finite value on a zero divisor. -/
noncomputable def fdiv (x y : ℝ) : Option ℝ :=
  if y = 0 then none else some (x / y)

/-! ## The source functions -/

/-- Source `norm_cdf`: `return 0.5 * (1 + std::erf(x / std::sqrt(2.0)));`. -/
noncomputable def norm_cdf (x : ℝ) : Option ℝ := do
  let s ← std.sqrt 2.0
  let q ← fdiv x s
  pure (0.5 * (1 + std.erf q))

/-- Source `bsm_put`: the guard returning the not-a-number sentinel, then `d1`, `d2` and
`put` as the source computes them. -/
noncomputable def bsm_put (r S sigma K t : ℝ) : Option ℝ :=
  if sigma ≤ 0 ∨ t ≤ 0 ∨ S ≤ 0 ∨ K ≤ 0 then
    none
  else do
    let q ← fdiv S K
    let l ← std.log q
    let st ← std.sqrt t
    let d1 ← fdiv (l + (r + 0.5 * sigma * sigma) * t) (sigma * st)
    let st2 ← std.sqrt t
    let d2 := d1 - sigma * st2
    let n2 ← norm_cdf (-d2)
    let n1 ← norm_cdf (-d1)
    let put := K * std.exp (-r * t) * n2 - S * n1
    pure put

/-! ## The formulas as the specification words them -/

/-- Specification: `Φ(x) = ½·(1 + erf(x / √2))`. -/
noncomputable def specPhi (x : ℝ) : ℝ := 1 / 2 * (1 + std.erf (x / Real.sqrt 2))

/-- Specification: `d1 = (ln(S / K) + (r + 0.5·sigma²)·t) / (sigma·√t)`. -/
noncomputable def specD1 (r S sigma K t : ℝ) : ℝ :=
  (Real.log (S / K) + (r + 0.5 * sigma ^ 2) * t) / (sigma * Real.sqrt t)

/-- Specification: `d2 = d1 - sigma·√t`. -/
noncomputable def specD2 (r S sigma K t : ℝ) : ℝ :=
  specD1 r S sigma K t - sigma * Real.sqrt t

/-- Specification: `put = K·e^(-r·t)·Φ(-d2) - S·Φ(-d1)`. -/
noncomputable def specPut (r S sigma K t : ℝ) : ℝ :=
  K * Real.exp (-(r * t)) * specPhi (-specD2 r S sigma K t)
    - S * specPhi (-specD1 r S sigma K t)

/-! ## Auxiliary quantities of the analysis -/

/-- The constant `1/√(2π)` of the standard normal density, the slope of `specPhi` at `0`. -/
noncomputable def densC : ℝ := 1 / (Real.sqrt Real.pi * Real.sqrt 2)

/-- The degree-six Taylor polynomial of `exp (-(s²/2))` with the remainder term `9·c·s⁸`. -/
noncomputable def gaussPoly (c s : ℝ) : ℝ :=
  1 - s ^ 2 / 2 + s ^ 4 / 8 - s ^ 6 / 48 + 9 * c * s ^ 8

/-- The antiderivative of `gaussPoly c` that vanishes at `0`. -/
noncomputable def gaussPrim (c x : ℝ) : ℝ :=
  x - x ^ 3 / 6 + x ^ 5 / 40 - x ^ 7 / 336 + c * x ^ 9

open MeasureTheory Filter Topology

/-! ## Evaluation of the source functions -/

theorem std_sqrt_of_nonneg {x : ℝ} (hx : 0 ≤ x) : std.sqrt x = some (Real.sqrt x) := by
  unfold std.sqrt
  rw [if_neg (not_lt.mpr hx)]

theorem std_log_of_pos {x : ℝ} (hx : 0 < x) : std.log x = some (Real.log x) := by
  unfold std.log
  rw [if_neg (not_le.mpr hx)]

theorem fdiv_of_ne_zero (x : ℝ) {y : ℝ} (hy : y ≠ 0) : fdiv x y = some (x / y) := by
  unfold fdiv
  rw [if_neg hy]

/-- `norm_cdf` always returns a finite value, the one of the specification's `Φ`. -/
theorem norm_cdf_eq (x : ℝ) : norm_cdf x = some (specPhi x) := by
  have h2 : (0 : ℝ) ≤ 2.0 := by norm_num
  have hs : Real.sqrt 2.0 ≠ 0 := by
    have : (0 : ℝ) < Real.sqrt 2.0 := Real.sqrt_pos.mpr (by norm_num)
    exact ne_of_gt this
  have e2 : (2.0 : ℝ) = 2 := by norm_num
  have e5 : (0.5 : ℝ) = 1 / 2 := by norm_num
  unfold norm_cdf
  rw [std_sqrt_of_nonneg h2]
  simp only [Option.bind_eq_bind, Option.some_bind, fdiv_of_ne_zero x hs]
  simp only [specPhi, e2, e5]
  rfl

/-- The guard of `bsm_put` fails exactly on the valid parameters. -/
theorem guard_false {S sigma K t : ℝ} (hsig : 0 < sigma) (ht : 0 < t) (hS : 0 < S)
    (hK : 0 < K) : ¬ (sigma ≤ 0 ∨ t ≤ 0 ∨ S ≤ 0 ∨ K ≤ 0) := by
  rintro (h | h | h | h) <;> linarith

/-- On valid parameters `bsm_put` returns the finite value of the specification's formula. -/
theorem bsm_put_eq (r : ℝ) {S sigma K t : ℝ} (hsig : 0 < sigma) (ht : 0 < t) (hS : 0 < S)
    (hK : 0 < K) : bsm_put r S sigma K t = some (specPut r S sigma K t) := by
  have hq : 0 < S / K := div_pos hS hK
  have hst : 0 < Real.sqrt t := Real.sqrt_pos.mpr ht
  have hden : sigma * Real.sqrt t ≠ 0 := ne_of_gt (mul_pos hsig hst)
  unfold bsm_put
  rw [if_neg (guard_false hsig ht hS hK)]
  simp only [Option.bind_eq_bind, fdiv_of_ne_zero S (ne_of_gt hK), Option.some_bind,
    std_log_of_pos hq, std_sqrt_of_nonneg ht.le, fdiv_of_ne_zero _ hden, norm_cdf_eq]
  simp only [specPut, specD2, specD1, std.exp]
  have e : (0.5 : ℝ) * sigma * sigma = 0.5 * sigma ^ 2 := by ring
  have e2 : -r * t = -(r * t) := by ring
  rw [e, e2]
  rfl

/-! ## The error function -/

/-- The integrand of `std.erf` is continuous. -/
theorem gauss_continuous : Continuous (fun s : ℝ => Real.exp (-s ^ 2)) := by
  fun_prop

/-- The derivative of the error function is `2/√π · exp (-x²)`. -/
theorem erf_hasDerivAt (x : ℝ) :
    HasDerivAt std.erf (2 / Real.sqrt Real.pi * Real.exp (-x ^ 2)) x := by
  have h := intervalIntegral.integral_hasDerivAt_right
    (gauss_continuous.intervalIntegrable 0 x)
    (gauss_continuous.stronglyMeasurableAtFilter _ _) gauss_continuous.continuousAt
  exact h.const_mul _

/-- The error function is odd. -/
theorem erf_neg (x : ℝ) : std.erf (-x) = -std.erf x := by
  unfold std.erf
  have h := intervalIntegral.integral_comp_neg (a := 0) (b := x)
    (fun s : ℝ => Real.exp (-s ^ 2))
  simp only [neg_sq, neg_zero] at h
  rw [intervalIntegral.integral_symm (-x) 0, ← h]; ring

theorem erf_zero : std.erf 0 = 0 := by
  unfold std.erf; simp

/-- The error function tends to `1` at `+∞`, by the Gaussian integral. -/
theorem erf_tendsto_atTop : Tendsto std.erf atTop (𝓝 1) := by
  have hint : IntegrableOn (fun s : ℝ => Real.exp (-s ^ 2)) (Set.Ioi 0) := by
    have := (integrable_exp_neg_mul_sq (b := 1) one_pos).integrableOn (s := Set.Ioi 0)
    simpa using this
  have h := intervalIntegral_tendsto_integral_Ioi 0 hint tendsto_id
  have hval : ∫ s in Set.Ioi (0:ℝ), Real.exp (-s ^ 2) = Real.sqrt Real.pi / 2 := by
    have := integral_gaussian_Ioi 1
    simpa using this
  rw [hval] at h
  have h2 := h.const_mul (2 / Real.sqrt Real.pi)
  have hpi : Real.sqrt Real.pi ≠ 0 := (Real.sqrt_pos.mpr Real.pi_pos).ne'
  have e : 2 / Real.sqrt Real.pi * (Real.sqrt Real.pi / 2) = 1 := by field_simp
  rw [e] at h2
  exact h2

theorem erf_strictMono : StrictMono std.erf := by
  apply strictMono_of_deriv_pos
  intro x
  rw [(erf_hasDerivAt x).deriv]
  have : 0 < Real.sqrt Real.pi := Real.sqrt_pos.mpr Real.pi_pos
  positivity

theorem erf_lt_one (x : ℝ) : std.erf x < 1 :=
  lt_of_lt_of_le (erf_strictMono (lt_add_one x))
    (erf_strictMono.monotone.ge_of_tendsto erf_tendsto_atTop (x + 1))

theorem neg_one_lt_erf (x : ℝ) : -1 < std.erf x := by
  have := erf_lt_one (-x)
  rw [erf_neg] at this
  linarith

/-! ## The normal distribution function -/

theorem densC_pos : 0 < densC := by
  unfold densC
  have h1 : 0 < Real.sqrt Real.pi := Real.sqrt_pos.mpr Real.pi_pos
  have h2 : 0 < Real.sqrt 2 := Real.sqrt_pos.mpr (by norm_num)
  positivity

/-- The derivative of `Φ` is the standard normal density. -/
theorem specPhi_hasDerivAt (x : ℝ) :
    HasDerivAt specPhi (densC * Real.exp (-(x ^ 2 / 2))) x := by
  have h2 : 0 < Real.sqrt 2 := Real.sqrt_pos.mpr (by norm_num)
  have hd : HasDerivAt (fun y : ℝ => y / Real.sqrt 2) (1 / Real.sqrt 2) x :=
    (hasDerivAt_id x).div_const _
  have he := (erf_hasDerivAt (x / Real.sqrt 2)).comp x hd
  have h := (he.const_add 1).const_mul (1 / 2 : ℝ)
  have hsq : (x / Real.sqrt 2) ^ 2 = x ^ 2 / 2 := by
    rw [div_pow, Real.sq_sqrt (by norm_num : (0:ℝ) ≤ 2)]
  have e : 1 / 2 * (2 / Real.sqrt Real.pi * Real.exp (-(x / Real.sqrt 2) ^ 2) * (1 / Real.sqrt 2))
      = densC * Real.exp (-(x ^ 2 / 2)) := by
    rw [hsq]; unfold densC
    have h1 : 0 < Real.sqrt Real.pi := Real.sqrt_pos.mpr Real.pi_pos
    field_simp
  rw [e] at h
  exact h

/-- Symmetry of `Φ`. -/
theorem specPhi_add_neg (x : ℝ) : specPhi x + specPhi (-x) = 1 := by
  unfold specPhi
  rw [neg_div, erf_neg]; ring

theorem specPhi_strictMono : StrictMono specPhi := by
  apply strictMono_of_deriv_pos
  intro x
  rw [(specPhi_hasDerivAt x).deriv]
  exact mul_pos densC_pos (Real.exp_pos _)

theorem specPhi_pos (x : ℝ) : 0 < specPhi x := by
  unfold specPhi
  have := neg_one_lt_erf (x / Real.sqrt 2)
  linarith

theorem specPhi_lt_one (x : ℝ) : specPhi x < 1 := by
  unfold specPhi
  have := erf_lt_one (x / Real.sqrt 2)
  linarith

/-- Third-order Taylor enclosure of `exp (-u)` on `0 ≤ u ≤ 1`. -/
theorem exp_neg_bound {u : ℝ} (h0 : 0 ≤ u) (h1 : u ≤ 1) :
    |Real.exp (-u) - (1 - u + u ^ 2 / 2 - u ^ 3 / 6)| ≤ u ^ 4 * (5 / 96) := by
  have hu : |(-u)| ≤ 1 := by rw [abs_neg, abs_of_nonneg h0]; exact h1
  have h := Real.exp_bound hu (n := 4) (by norm_num)
  have e1 : (∑ m ∈ Finset.range 4, (-u) ^ m / (m.factorial : ℝ))
      = 1 - u + u ^ 2 / 2 - u ^ 3 / 6 := by
    simp [Finset.sum_range_succ, Nat.factorial]
    ring
  have e2 : |(-u)| ^ 4 * (((Nat.succ 4 : ℕ) : ℝ) / ((Nat.factorial 4 : ℕ) * (4 : ℕ)))
      = u ^ 4 * (5 / 96) := by
    rw [abs_neg, abs_of_nonneg h0]
    norm_num [Nat.factorial]
  rw [e1, e2] at h
  exact h

theorem gaussPrim_hasDerivAt (c s : ℝ) : HasDerivAt (gaussPrim c) (gaussPoly c s) s := by
  have h := ((((hasDerivAt_id s).sub ((hasDerivAt_pow 3 s).div_const 6)).add
    ((hasDerivAt_pow 5 s).div_const 40)).sub ((hasDerivAt_pow 7 s).div_const 336)).add
    ((hasDerivAt_pow 9 s).const_mul c)
  have e : (1 - ((3 : ℕ) : ℝ) * s ^ (3 - 1) / 6 + ((5 : ℕ) : ℝ) * s ^ (5 - 1) / 40
      - ((7 : ℕ) : ℝ) * s ^ (7 - 1) / 336 + c * (((9 : ℕ) : ℝ) * s ^ (9 - 1)))
      = gaussPoly c s := by
    unfold gaussPoly; norm_num; ring
  rw [e] at h
  exact h

theorem gaussPoly_continuous (c : ℝ) : Continuous (gaussPoly c) := by
  unfold gaussPoly; fun_prop

theorem integral_gaussPoly (c x : ℝ) : ∫ s in (0 : ℝ)..x, gaussPoly c s = gaussPrim c x := by
  rw [intervalIntegral.integral_eq_sub_of_hasDerivAt (fun s _ => gaussPrim_hasDerivAt c s)
    ((gaussPoly_continuous c).intervalIntegrable 0 x)]
  simp [gaussPrim]

theorem gaussKernel_continuous : Continuous (fun s : ℝ => Real.exp (-(s ^ 2 / 2))) := by
  fun_prop

/-- Two-sided bound on `∫₀ˣ exp (-(s²/2)) ds` for `0 ≤ x ≤ 1`. -/
theorem gaussInt_bounds {x : ℝ} (h0 : 0 ≤ x) (h1 : x ≤ 1) :
    gaussPrim (-(5 / 13824)) x ≤ ∫ s in (0 : ℝ)..x, Real.exp (-(s ^ 2 / 2)) ∧
    ∫ s in (0 : ℝ)..x, Real.exp (-(s ^ 2 / 2)) ≤ gaussPrim (5 / 13824) x := by
  have hb : ∀ s ∈ Set.Icc (0 : ℝ) x,
      gaussPoly (-(5 / 13824)) s ≤ Real.exp (-(s ^ 2 / 2)) ∧
      Real.exp (-(s ^ 2 / 2)) ≤ gaussPoly (5 / 13824) s := by
    intro s hs
    have hs1 : s ≤ 1 := le_trans hs.2 h1
    have hu0 : 0 ≤ s ^ 2 / 2 := by positivity
    have hu1 : s ^ 2 / 2 ≤ 1 := by nlinarith [hs.1]
    have h := abs_le.mp (exp_neg_bound hu0 hu1)
    unfold gaussPoly
    constructor
    · have := h.1
      ring_nf at this ⊢
      linarith
    · have := h.2
      ring_nf at this ⊢
      linarith
  constructor
  · rw [← integral_gaussPoly]
    exact intervalIntegral.integral_mono_on h0
      ((gaussPoly_continuous _).intervalIntegrable 0 x)
      (gaussKernel_continuous.intervalIntegrable 0 x) (fun s hs => (hb s hs).1)
  · rw [← integral_gaussPoly]
    exact intervalIntegral.integral_mono_on h0
      (gaussKernel_continuous.intervalIntegrable 0 x)
      ((gaussPoly_continuous _).intervalIntegrable 0 x) (fun s hs => (hb s hs).2)

/-- The error function at `x/√2` as an integral of the normal density's kernel. -/
theorem erf_div_sqrt_two (x : ℝ) :
    std.erf (x / Real.sqrt 2) = 2 * densC * ∫ s in (0 : ℝ)..x, Real.exp (-(s ^ 2 / 2)) := by
  have h2 : 0 < Real.sqrt 2 := Real.sqrt_pos.mpr (by norm_num)
  have h1 : 0 < Real.sqrt Real.pi := Real.sqrt_pos.mpr Real.pi_pos
  have h := intervalIntegral.integral_comp_div (a := 0) (b := x)
    (fun u : ℝ => Real.exp (-u ^ 2)) h2.ne'
  have hsq : ∀ s : ℝ, -(s / Real.sqrt 2) ^ 2 = -(s ^ 2 / 2) := by
    intro s
    rw [div_pow, Real.sq_sqrt (by norm_num : (0:ℝ) ≤ 2)]
  simp only [hsq, zero_div, smul_eq_mul] at h
  unfold std.erf densC
  rw [h]
  field_simp
  ring

theorem specPhi_neg_eq (x : ℝ) :
    specPhi (-x) = 1 / 2 - densC * ∫ s in (0 : ℝ)..x, Real.exp (-(s ^ 2 / 2)) := by
  unfold specPhi
  rw [neg_div, erf_neg, erf_div_sqrt_two]
  ring

/-- Enclosure of `1/√(2π)` from `π` to six decimals. -/
theorem densC_bounds : (398942 / 1000000 : ℝ) ≤ densC ∧ densC ≤ 3989425 / 10000000 := by
  have hmul : Real.sqrt Real.pi * Real.sqrt 2 = Real.sqrt (Real.pi * 2) :=
    (Real.sqrt_mul Real.pi_pos.le 2).symm
  have hpos : 0 < Real.sqrt (Real.pi * 2) := Real.sqrt_pos.mpr (by positivity)
  have hlo := Real.pi_gt_d6
  have hhi := Real.pi_lt_d6
  unfold densC
  rw [hmul]
  constructor
  · rw [le_div_iff₀ hpos]
    have : Real.sqrt (Real.pi * 2) ≤ 1000000 / 398942 := by
      rw [Real.sqrt_le_left (by norm_num)]
      nlinarith
    nlinarith
  · rw [div_le_iff₀ hpos]
    have : (10000000 / 3989425 : ℝ) ≤ Real.sqrt (Real.pi * 2) := by
      apply Real.le_sqrt_of_sq_le
      nlinarith
    nlinarith

theorem specD1_atm : specD1 0.05 100 0.2 100 1 = 7 / 20 := by
  unfold specD1
  rw [div_self (by norm_num : (100 : ℝ) ≠ 0), Real.log_one, Real.sqrt_one]
  norm_num

theorem specD2_atm : specD2 0.05 100 0.2 100 1 = 3 / 20 := by
  unfold specD2
  rw [specD1_atm, Real.sqrt_one]
  norm_num

/-- Bounds on `Φ(-x)` for `0 ≤ x ≤ 1` from bounds on the Gaussian integral. -/
theorem specPhi_neg_bounds (x lo hi : ℝ) (h0 : 0 ≤ x) (h1 : x ≤ 1) (hlo0 : 0 ≤ lo)
    (hlo : lo ≤ gaussPrim (-(5 / 13824)) x) (hhi : gaussPrim (5 / 13824) x ≤ hi) :
    1 / 2 - 3989425 / 10000000 * hi ≤ specPhi (-x) ∧
      specPhi (-x) ≤ 1 / 2 - 398942 / 1000000 * lo := by
  obtain ⟨hI1, hI2⟩ := gaussInt_bounds h0 h1
  obtain ⟨hc1, hc2⟩ := densC_bounds
  have hIlo := le_trans hlo hI1
  have hIhi := le_trans hI2 hhi
  rw [specPhi_neg_eq]
  constructor
  · have := mul_le_mul hc2 hIhi (le_trans hlo0 hIlo) (by norm_num)
    linarith
  · have := mul_le_mul hc1 hIlo hlo0 densC_pos.le
    linarith

theorem exp_atm_bounds : (9512288 / 10000000 : ℝ) ≤ Real.exp (-(1 / 20)) ∧
    Real.exp (-(1 / 20)) ≤ 9512295 / 10000000 := by
  have h := abs_le.mp (exp_neg_bound (u := 1 / 20) (by norm_num) (by norm_num))
  constructor
  · have := h.1; norm_num at this ⊢; linarith
  · have := h.2; norm_num at this ⊢; linarith

/-- Enclosure of the formula's value at the at-the-money scenario. -/
theorem specPut_atm_bounds :
    (5.5725 : ℝ) ≤ specPut 0.05 100 0.2 100 1 ∧ specPut 0.05 100 0.2 100 1 ≤ 5.5745 := by
  obtain ⟨hE1, hE2⟩ := exp_atm_bounds
  obtain ⟨hA1, hA2⟩ := specPhi_neg_bounds (3 / 20) (14943939 / 100000000)
    (14943940 / 100000000) (by norm_num) (by norm_num) (by norm_num)
    (by unfold gaussPrim; norm_num) (by unfold gaussPrim; norm_num)
  obtain ⟨hB1, hB2⟩ := specPhi_neg_bounds (7 / 20) (3429835 / 10000000)
    (3429836 / 10000000) (by norm_num) (by norm_num) (by norm_num)
    (by unfold gaussPrim; norm_num) (by unfold gaussPrim; norm_num)
  have e : (0.05 : ℝ) * 1 = 1 / 20 := by norm_num
  unfold specPut
  rw [specD1_atm, specD2_atm, e]
  set E := Real.exp (-(1 / 20))
  set A := specPhi (-(3 / 20))
  set B := specPhi (-(7 / 20))
  have hA0 : (0 : ℝ) ≤ 1 / 2 - 3989425 / 10000000 * (14943940 / 100000000) := by norm_num
  have hlo := mul_le_mul hE1 hA1 hA0 (le_trans (by norm_num) hE1)
  have hhi := mul_le_mul hE2 hA2 (le_trans hA0 hA1) (by norm_num)
  constructor
  · have : (100 : ℝ) * E * A - 100 * B = 100 * (E * A) - 100 * B := by ring
    rw [this]
    norm_num at hlo hB2 ⊢
    linarith
  · have : (100 : ℝ) * E * A - 100 * B = 100 * (E * A) - 100 * B := by ring
    rw [this]
    norm_num at hhi hB1 ⊢
    linarith

/-! ## The claims of the specification -/

/-- C1: whenever `sigma ≤ 0`, `t ≤ 0`, `S ≤ 0` or `K ≤ 0` (zero included), `bsm_put` returns
the not-a-number sentinel `none`, for every `r`: the sentinel is the value of the call, no
error is raised, and the guard alone fixes it, before any operation of the formula. -/
theorem bsm_put_guard (r S sigma K t : ℝ) (h : sigma ≤ 0 ∨ t ≤ 0 ∨ S ≤ 0 ∨ K ≤ 0) :
    bsm_put r S sigma K t = none := by
  unfold bsm_put
  rw [if_pos h]

theorem bsm_put_guard_witness :
    bsm_put 0.01 100 0 100 1 = none ∧ bsm_put 0.01 100 0.2 100 0 = none ∧
      bsm_put 0.01 0 0.2 100 1 = none ∧ bsm_put 0.01 100 0.2 0 1 = none ∧
      bsm_put 0.01 100 (-0.2) 100 1 = none :=
  ⟨bsm_put_guard 0.01 100 0 100 1 (Or.inl le_rfl),
   bsm_put_guard 0.01 100 0.2 100 0 (Or.inr (Or.inl le_rfl)),
   bsm_put_guard 0.01 0 0.2 100 1 (Or.inr (Or.inr (Or.inl le_rfl))),
   bsm_put_guard 0.01 100 0.2 0 1 (Or.inr (Or.inr (Or.inr le_rfl))),
   bsm_put_guard 0.01 100 (-0.2) 100 1 (Or.inl (by norm_num))⟩

/-- C3: `norm_cdf` returns, for every real `x`, a finite value in the closed interval
`[0, 1]`. -/
theorem norm_cdf_mem_unit (x : ℝ) : ∃ y : ℝ, norm_cdf x = some y ∧ 0 ≤ y ∧ y ≤ 1 :=
  ⟨specPhi x, norm_cdf_eq x, (specPhi_pos x).le, (specPhi_lt_one x).le⟩

/-- C4: symmetry of `norm_cdf`: the values at `x` and `-x` add up to `1`, and the value at
`0` is `0.5`. -/
theorem norm_cdf_symm :
    (∀ x : ℝ, ∃ a b : ℝ, norm_cdf x = some a ∧ norm_cdf (-x) = some b ∧ a + b = 1) ∧
      norm_cdf 0 = some 0.5 := by
  refine ⟨fun x => ⟨specPhi x, specPhi (-x), norm_cdf_eq x, norm_cdf_eq (-x),
    specPhi_add_neg x⟩, ?_⟩
  rw [norm_cdf_eq]
  have h := specPhi_add_neg 0
  rw [neg_zero] at h
  have e : specPhi 0 = 0.5 := by norm_num; linarith
  rw [e]

/-- C5: `norm_cdf` is non-decreasing: for `x ≤ y` its value at `x` is at most its value
at `y`. -/
theorem norm_cdf_monotone (x y : ℝ) (hxy : x ≤ y) :
    ∃ a b : ℝ, norm_cdf x = some a ∧ norm_cdf y = some b ∧ a ≤ b :=
  ⟨specPhi x, specPhi y, norm_cdf_eq x, norm_cdf_eq y, specPhi_strictMono.monotone hxy⟩

theorem norm_cdf_monotone_witness :
    (0 : ℝ) ≤ 1 ∧ ∃ a b : ℝ, norm_cdf 0 = some a ∧ norm_cdf 1 = some b ∧ a ≤ b :=
  ⟨zero_le_one, norm_cdf_monotone 0 1 zero_le_one⟩

/-- C9: at `r = 0.05`, `S = 100`, `sigma = 0.2`, `K = 100`, `t = 1`, `bsm_put` returns a
finite value within `0.001` of `5.5735`. -/
theorem bsm_put_atm_value :
    ∃ p : ℝ, bsm_put 0.05 100 0.2 100 1 = some p ∧ |p - 5.5735| ≤ 0.001 := by
  refine ⟨specPut 0.05 100 0.2 100 1,
    bsm_put_eq 0.05 (by norm_num) (by norm_num) (by norm_num) (by norm_num), ?_⟩
  obtain ⟨h1, h2⟩ := specPut_atm_bounds
  rw [abs_le]
  constructor
  · norm_num at h1 ⊢; linarith
  · norm_num at h2 ⊢; linarith

end Finlab
